import Mathlib

/-!
# Verification of the Figma → Range sync service (src/index.js)

A shallow embedding of the synchronization pipeline in `src/index.js`:
the remote-read stages, the activity extractor (`addEditorsSince`), the
identity resolver (`getEmailFromHandle`), the payload builder
(`createRangePayloads`, including the SHA-1 digest used for `email_hash`),
the dispatcher (`sendRangePayloads`), and the orchestrator
(`syncFigmaToRange` together with the `lastSyncedTime` marker).

Modelling conventions:
* Timestamps (`moment` values) are integers counted in minutes; `isAfter`
  is strict `<` and `subtract(1, "minutes")` is `· - 1`.
* A remote HTTP request either yields a parsed body (`some`) or fails
  (`none`); `Promise.all` over requests is `List.mapM` over `Option`.
* JavaScript's `String.prototype.trim`/`toLowerCase` are modelled by
  list-of-character functions `trimStr`/`lowerStr` (ASCII case folding,
  ASCII whitespace), and `crypto.createHash("sha1")` by an executable
  SHA-1 over the UTF-8 bytes of the string.
* A JavaScript `Map` is an insertion-ordered association list; `Map.set`
  (`mapSet`) overwrites the value of an existing key in place and appends
  a new key at the end, exactly like the JS semantics.
-/

namespace FigmaRangeSync

/-- Timestamps, in minutes (the granularity `index.js` manipulates markers at). -/
abbrev Time := Int

/-- A Figma project, as returned by `GET /teams/{id}/projects`. -/
structure Project where
  id : String
  name : String
deriving DecidableEq, Repr

/-- A Figma file, as returned by `GET /projects/{id}/files`. -/
structure FigFile where
  key : String
  name : String
  last_modified : Time
deriving DecidableEq, Repr

/-- The author recorded on a Figma version. -/
structure FUser where
  id : String
  handle : String
deriving DecidableEq, Repr

/-- A Figma file version, as returned by `GET /files/{key}/versions`
(newest first). -/
structure Version where
  id : String
  created_at : Time
  user : FUser
deriving DecidableEq, Repr

/-- The `{file, versions}` aggregate produced by `getFigmaVersionForFiles`. -/
structure SyncEntry where
  file : FigFile
  versions : List Version
deriving DecidableEq, Repr

/-- An editor entry pushed onto `entry.editors` by `addEditorsSince`. -/
structure Editor where
  name : String
  email : String
deriving DecidableEq, Repr

/-- The `{file, versions, editors}` aggregate after `addEditorsSince`. -/
structure SyncEntryE where
  file : FigFile
  versions : List Version
  editors : List Editor
deriving DecidableEq, Repr

/-- The `attachment` object of a Range payload (`createRangePayloads`). -/
structure Attachment where
  source_id : String
  provider : String
  provider_name : String
  html_url : String
  name : String
  type : String
  subtype : String
deriving DecidableEq, Repr

/-- A Range payload built by `createRangePayloads`. -/
structure Payload where
  email_hash : String
  is_future : Bool
  reason : String
  dedupe_strategy : String
  attachment : Attachment
deriving DecidableEq, Repr

/-! ## JavaScript string primitives (`trim`, `toLowerCase`) -/

/-- ASCII case folding of one character (`String.prototype.toLowerCase`
restricted to the ASCII range used by handles). -/
def lowerChar (c : Char) : Char :=
  if c.toNat ≥ 65 ∧ c.toNat ≤ 90 then Char.ofNat (c.toNat + 32) else c

/-- `String.prototype.toLowerCase`. -/
def lowerStr (s : String) : String :=
  String.mk (s.data.map lowerChar)

/-- ASCII whitespace, as stripped by `String.prototype.trim`. -/
def isWs (c : Char) : Bool :=
  c == ' ' || c == '\t' || c == '\n' || c == '\r'

/-- `String.prototype.trim`: strip leading and trailing whitespace. -/
def trimStr (s : String) : String :=
  String.mk (((s.data.dropWhile isWs).reverse.dropWhile isWs).reverse)

/-- The normalization `index.js` applies to both sides of the
`getEmailFromHandle` comparison: `.trim().toLowerCase()`. -/
def normHandle (s : String) : String :=
  lowerStr (trimStr s)

/-! ## SHA-1 (`crypto.createHash("sha1").update(email).digest("hex")`)

Implemented over `Nat` with explicit reduction modulo `2 ^ 32`. -/

/-- Truncate to 32 bits. -/
def w32 (n : Nat) : Nat := n % 4294967296

/-- 32-bit left rotation by `k`. -/
def rotl (k n : Nat) : Nat :=
  w32 ((n <<< k) + (n >>> (32 - k)))

/-- The SHA-1 round function for round `i`. -/
def sha1F (i b c d : Nat) : Nat :=
  if i < 20 then ((b &&& c) ||| ((4294967295 - b) &&& d))
  else if i < 40 then (b ^^^ c) ^^^ d
  else if i < 60 then ((b &&& c) ||| (b &&& d)) ||| (c &&& d)
  else (b ^^^ c) ^^^ d

/-- The SHA-1 round constant for round `i`. -/
def sha1K (i : Nat) : Nat :=
  if i < 20 then 0x5A827999
  else if i < 40 then 0x6ED9EBA1
  else if i < 60 then 0x8F1BBCDC
  else 0xCA62C1D6

/-- Assemble big-endian 32-bit words from a list of bytes. -/
def toWords : List Nat → List Nat
  | b0 :: b1 :: b2 :: b3 :: rest =>
      (((b0 * 256 + b1) * 256 + b2) * 256 + b3) :: toWords rest
  | _ => []

/-- Message-schedule extension, on the reversed word list: prepend
`rotl 1 (w[i-3] xor w[i-8] xor w[i-14] xor w[i-16])` `r` times. -/
def extendRev (rev : List Nat) : Nat → List Nat
  | 0 => rev
  | r + 1 =>
      extendRev
        (rotl 1 (((rev.getD 2 0) ^^^ (rev.getD 7 0)) ^^^
                 ((rev.getD 13 0) ^^^ (rev.getD 15 0))) :: rev) r

/-- The 80 compression rounds over the message schedule `ws`. -/
def sha1Rounds : List Nat → Nat → Nat → Nat → Nat → Nat → Nat →
    Nat × Nat × Nat × Nat × Nat
  | [], _, a, b, c, d, e => (a, b, c, d, e)
  | w :: rest, i, a, b, c, d, e =>
      sha1Rounds rest (i + 1)
        (w32 (rotl 5 a + sha1F i b c d + e + sha1K i + w))
        a (rotl 30 b) c d

/-- The five 32-bit words of the running SHA-1 state. -/
structure Sha1State where
  h0 : Nat
  h1 : Nat
  h2 : Nat
  h3 : Nat
  h4 : Nat
deriving DecidableEq, Repr

/-- Process one 64-byte chunk. -/
def processChunk (st : Sha1State) (chunk : List Nat) : Sha1State :=
  let ws := (extendRev (toWords chunk).reverse 64).reverse
  let r := sha1Rounds ws 0 st.h0 st.h1 st.h2 st.h3 st.h4
  ⟨w32 (st.h0 + r.1), w32 (st.h1 + r.2.1), w32 (st.h2 + r.2.2.1),
   w32 (st.h3 + r.2.2.2.1), w32 (st.h4 + r.2.2.2.2)⟩

/-- Big-endian 8-byte encoding of `n` (the message-length field). -/
def beBytes8 (n : Nat) : List Nat :=
  (List.range 8).map (fun i => (n >>> (8 * (7 - i))) % 256)

/-- SHA-1 padding: `0x80`, zeros to 56 mod 64, then the bit length. -/
def padMessage (msg : List Nat) : List Nat :=
  msg ++ 0x80 :: List.replicate ((55 + 64 - (msg.length % 64)) % 64) 0 ++
    beBytes8 (8 * msg.length)

/-- Split a byte list into 64-byte chunks; `fuel` bounds the recursion
(any `fuel ≥ l.length` yields all chunks). -/
def toChunksF : Nat → List Nat → List (List Nat)
  | 0, _ => []
  | _, [] => []
  | fuel + 1, x :: rest => ((x :: rest).take 64) :: toChunksF fuel ((x :: rest).drop 64)

/-- Split a (padded) byte list into 64-byte chunks. -/
def toChunks (l : List Nat) : List (List Nat) :=
  toChunksF l.length l

/-- UTF-8 encoding of one code point. -/
def utf8Encode (c : Nat) : List Nat :=
  if c < 128 then [c]
  else if c < 2048 then [192 + c / 64, 128 + c % 64]
  else if c < 65536 then [224 + c / 4096, 128 + (c / 64) % 64, 128 + c % 64]
  else [240 + c / 262144, 128 + (c / 4096) % 64, 128 + (c / 64) % 64, 128 + c % 64]

/-- The UTF-8 bytes of a string (what `hash.update(string)` digests). -/
def strBytes (s : String) : List Nat :=
  (s.data.map (fun c => utf8Encode c.toNat)).flatten

/-- One lowercase hexadecimal digit. -/
def hexDigit (n : Nat) : Char :=
  if n < 10 then Char.ofNat (48 + n) else Char.ofNat (87 + n)

/-- Eight hex digits of a 32-bit word, most significant first. -/
def toHex8 (n : Nat) : List Char :=
  (List.range 8).map (fun i => hexDigit ((n >>> (4 * (7 - i))) % 16))

/-- `crypto.createHash("sha1").update(s).digest("hex")`. -/
def sha1Hex (s : String) : String :=
  let st := (toChunks (padMessage (strBytes s))).foldl processChunk
    ⟨0x67452301, 0xEFCDAB89, 0x98BADCFE, 0x10325476, 0xC3D2E1F0⟩
  String.mk (toHex8 st.h0 ++ toHex8 st.h1 ++ toHex8 st.h2 ++
             toHex8 st.h3 ++ toHex8 st.h4)

/-! ## Identity resolver (`getEmailFromHandle`)

`CONF.users` is a YAML mapping; `for (var name in CONF.users)` iterates its
keys in insertion order, so the table is an ordered list of
`(display name, email)` pairs and the first normalized match wins. -/

/-- `getEmailFromHandle(handle)`: first table entry whose trimmed,
lowercased name equals the trimmed, lowercased handle. -/
def getEmailFromHandle (users : List (String × String)) (handle : String) :
    Option String :=
  match users with
  | [] => none
  | u :: rest =>
      if normHandle u.1 = normHandle handle then some u.2
      else getEmailFromHandle rest handle

/-! ## Activity extractor (`addEditorsSince`) -/

/-- Keys of an association list (a JS `Map`'s key sequence). -/
def mapKeys (m : List (String × String)) : List String :=
  m.map Prod.fst

/-- `Map.prototype.set`: overwrite the value of an existing key in place,
or append a new key at the end. -/
def mapSet (m : List (String × String)) (k v : String) :
    List (String × String) :=
  if k ∈ mapKeys m then m.map (fun p => if p.1 = k then (k, v) else p)
  else m ++ [(k, v)]

/-- First-match lookup in an association list (`Map.prototype.get`). -/
def lookupMap : List (String × String) → String → Option String
  | [], _ => none
  | p :: rest, k => if p.1 = k then some p.2 else lookupMap rest k

/-- The guard of the loop in `addEditorsSince`:
`(index === 0) | moment(version.created_at).isAfter(momentMarker)`. -/
def qualifies (marker : Time) (iv : Nat × Version) : Bool :=
  iv.1 == 0 || decide (marker < iv.2.created_at)

/-- The `editorsMap` built for one entry: walk the indexed version list and
`set(user.id, user.handle)` for every qualifying version. -/
def buildEditorsMap (marker : Time) (versions : List Version) :
    List (String × String) :=
  versions.enum.foldl
    (fun m iv => if qualifies marker iv then mapSet m iv.2.user.id iv.2.user.handle
                 else m)
    []

/-- The `(id, handle)` pairs of qualifying versions in walk order (used to
specify `buildEditorsMap`, which folds `mapSet` over exactly these pairs). -/
def qualifyingPairs (marker : Time) (versions : List Version) :
    List (String × String) :=
  (versions.enum.filter (qualifies marker)).map
    (fun iv => (iv.2.user.id, iv.2.user.handle))

/-- The diagnostic logged for a handle missing from the identity table. -/
def notFoundLine (handle : String) : String :=
  "  └ " ++ handle ++ " : 😭 Not found in config file"

/-- The line logged for a resolved handle. -/
def foundLine (handle email : String) : String :=
  "  └ " ++ handle ++ " : " ++ email

/-- Iterate `editorsMap`, resolving each handle; resolved editors are pushed
onto `entry.editors`, unresolved ones are skipped. -/
def resolveEditorList (users : List (String × String)) :
    List (String × String) → List Editor
  | [] => []
  | p :: rest =>
      match getEmailFromHandle users p.2 with
      | none => resolveEditorList users rest
      | some e => { name := p.2, email := e } :: resolveEditorList users rest

/-- The log lines produced while iterating `editorsMap`. -/
def resolveLog (users : List (String × String)) :
    List (String × String) → List String
  | [] => []
  | p :: rest =>
      match getEmailFromHandle users p.2 with
      | none => notFoundLine p.2 :: resolveLog users rest
      | some e => foundLine p.2 e :: resolveLog users rest

/-- `addEditorsSince(momentMarker)` applied to the entry list: each entry
gains an `editors` field; the second component is the log output. -/
def addEditorsSince (users : List (String × String)) (marker : Time) :
    List SyncEntry → List SyncEntryE × List String
  | [] => ([], [])
  | e :: rest =>
      ({ file := e.file, versions := e.versions,
         editors := resolveEditorList users (buildEditorsMap marker e.versions) } ::
         (addEditorsSince users marker rest).1,
       (("• " ++ e.file.name) ::
          resolveLog users (buildEditorsMap marker e.versions)) ++
         (addEditorsSince users marker rest).2)

/-! ## Payload builder (`createRangePayloads`) -/

/-- The payload pushed for one `(file, editor)` pair. -/
def payloadFor (file : FigFile) (ed : Editor) : Payload :=
  { email_hash := sha1Hex ed.email,
    is_future := false,
    reason := "EDITED",
    dedupe_strategy := "UPSERT_PENDING",
    attachment :=
      { source_id := file.key,
        provider := "figma",
        provider_name := "Figma",
        html_url := "https://www.figma.com/file/" ++ file.key,
        name := file.name,
        type := "DOCUMENT",
        subtype := "FIGMA_DOCUMENT" } }

/-- `createRangePayloads`: one payload per editor of each entry, in the
nested iteration order of the source. -/
def createRangePayloads : List SyncEntryE → List Payload
  | [] => []
  | e :: rest => e.editors.map (payloadFor e.file) ++ createRangePayloads rest

/-! ## Dispatcher (`sendRangePayloads`)

Each `axios.post` settles to `some status` when an HTTP response arrived
and `none` on a network error; with axios's default `validateStatus`, the
per-request promise resolves exactly when the status is in `[200, 300)`.
`Promise.all` therefore rejects — failing the dispatch step — as soon as
one delivery is a network error or a non-2xx response. The subsequent
`responses.forEach` check for `resp.status != 200` returns its
`Promise.reject` from the `forEach` callback, where it is discarded, so it
never affects the result: the `.then` handler always resolves. -/

/-- Whether one `axios.post` resolves, given its settled outcome. -/
def axiosResolves (r : Option Nat) : Bool :=
  match r with
  | none => false
  | some s => decide (200 ≤ s) && decide (s < 300)

/-- `sendRangePayloads` succeeds iff every delivery's promise resolves. -/
def sendRangePayloads (post : Payload → Option Nat) (payloads : List Payload) :
    Bool :=
  payloads.all (fun p => axiosResolves (post p))

/-- Dispatch criterion in the spec's words, for comparison with the
code-derived `sendRangePayloads`: success = HTTP 200, anything else is a
dispatch failure for the cycle. -/
def dispatchSuccessSpec (results : List (Option Nat)) : Bool :=
  results.all (fun r => r == some 200)

/-! ## Remote client and orchestrator (`syncFigmaToRange`) -/

/-- One cycle's view of the remote world: the settled outcome of each
possible request (`none` = request failed). -/
structure World where
  projects : Option (List Project)
  filesFor : String → Option (List FigFile)
  versionsFor : String → Option (List Version)
  postResult : Payload → Option Nat

/-- `getFigmaFilesForProjects`: fan-out one files request per project,
join (`Promise.all`), and concatenate in project order. -/
def getFigmaFilesForProjects (w : World) (ps : List Project) :
    Option (List FigFile) :=
  (ps.mapM (fun p => w.filesFor p.id)).map List.flatten

/-- `filterFigmaFilesToEditedAfter(momentMarker)`: keep files with
`last_modified` strictly after the marker. -/
def filterFigmaFilesToEditedAfter (marker : Time) (files : List FigFile) :
    List FigFile :=
  files.filter (fun f => decide (marker < f.last_modified))

/-- `getFigmaVersionForFiles`: fan-out one versions request per file and
pair each file with its version list. -/
def getFigmaVersionForFiles (w : World) (files : List FigFile) :
    Option (List SyncEntry) :=
  files.mapM (fun f => (w.versionsFor f.key).map
    (fun vs => { file := f, versions := vs }))

/-- The remote-read prefix of the cycle: projects, files, recency filter,
versions. `none` when any request of any stage fails. -/
def pipelineEntries (w : World) (marker : Time) : Option (List SyncEntry) :=
  (w.projects.bind (getFigmaFilesForProjects w)).bind
    (fun files => getFigmaVersionForFiles w
      (filterFigmaFilesToEditedAfter marker files))

/-- The whole promise chain up to `createRangePayloads`: the payload list
to dispatch and the log lines of the extraction stage. -/
def runPipeline (w : World) (users : List (String × String)) (marker : Time) :
    Option (List Payload × List String) :=
  (pipelineEntries w marker).map
    (fun entries =>
      (createRangePayloads (addEditorsSince users marker entries).1,
       (addEditorsSince users marker entries).2))

/-- One `syncFigmaToRange` cycle: `syncStartTime` is captured at entry;
on full success the marker becomes `syncStartTime − 1` minute, on any
failure (a rejection anywhere in the chain, caught by `.catch`) the marker
is left unchanged. Returns (cycle succeeded?, marker after the cycle). -/
def syncFigmaToRange (w : World) (users : List (String × String))
    (syncStartTime marker : Time) : Bool × Time :=
  match runPipeline w users marker with
  | none => (false, marker)
  | some (payloads, _) =>
      if sendRangePayloads w.postResult payloads then
        (true, syncStartTime - 1)
      else
        (false, marker)

/-- `lastSyncedTime` at startup: now minus the configured
`initialImportHistoryMinutes`. -/
def initialMarker (startTime historyMinutes : Time) : Time :=
  startTime - historyMinutes

/-- The successive values of `lastSyncedTime` over a run: the initial
marker followed by the marker after each cycle, each cycle started at its
own wall-clock time against its own remote world. -/
def markerTrace (users : List (String × String)) (m : Time) :
    List (World × Time) → List Time
  | [] => [m]
  | c :: cs => m :: markerTrace users (syncFigmaToRange c.1 users c.2 m).2 cs

/-- A list of timestamps is non-decreasing. -/
def nondecreasing : List Time → Bool
  | [] => true
  | [_] => true
  | a :: b :: rest => decide (a ≤ b) && nondecreasing (b :: rest)

/-! ## Specification helpers -/

/-- Left-biased choice on options (`a` if present, else `b`). -/
def optOr (a b : Option String) : Option String :=
  match a with
  | some x => some x
  | none => b

/-- The value paired with the last occurrence of key `k` in `ps` (walk
order): the value the last `Map.set` for `k` wrote. -/
def lastVal : List (String × String) → String → Option String
  | [], _ => none
  | p :: ps, k => optOr (lastVal ps k) (if p.1 = k then some p.2 else none)

/-- Folding `Map.set` over a list of `(key, value)` pairs. -/
def setFold (init : List (String × String)) (ps : List (String × String)) :
    List (String × String) :=
  ps.foldl (fun m p => mapSet m p.1 p.2) init

/-! ## Concrete fixtures (remote worlds and tables used by the closed
theorems below) -/

/-- A remote world with no projects: the cycle succeeds with nothing to do. -/
def wEmpty : World :=
  ⟨some [], fun _ => none, fun _ => none, fun _ => none⟩

/-- A remote world whose projects request fails. -/
def wFail : World :=
  ⟨none, fun _ => none, fun _ => none, fun _ => none⟩

/-- One project, one recently modified file, one version by `alice`; every
webhook POST comes back with HTTP status 204. -/
def w204 : World :=
  ⟨some [⟨"p1", "Proj"⟩],
   fun _ => some [⟨"KEY", "Design", 5⟩],
   fun _ => some [⟨"v1", 4, ⟨"u1", "alice"⟩⟩],
   fun _ => some 204⟩

/-- Identity table resolving `alice`. -/
def users204 : List (String × String) := [("alice", "a@example.com")]

/-- One project, one recently modified file, one version by `ghost` (a
handle that no identity table below contains); webhook POSTs return 200. -/
def wGhost : World :=
  ⟨some [⟨"p1", "Proj"⟩],
   fun _ => some [⟨"KEY", "Design", 5⟩],
   fun _ => some [⟨"v1", 4, ⟨"u7", "ghost"⟩⟩],
   fun _ => some 200⟩

/-- Identity table that does not contain `ghost`. -/
def users8 : List (String × String) := [("Alice", "alice@example.com")]

/-- The entry list `wGhost` yields for marker 0. -/
def entries8 : List SyncEntry :=
  [⟨⟨"KEY", "Design", 5⟩, [⟨"v1", 4, ⟨"u7", "ghost"⟩⟩]⟩]

/-- Identity table whose email value has mixed case. -/
def users9 : List (String × String) := [("alice", "Bob@Example.com")]

/-- A file fixture. -/
def file9 : FigFile := ⟨"K9", "Doc", 5⟩

/-- The editor resolved from `users9`. -/
def ed9 : Editor := ⟨"alice", "Bob@Example.com"⟩

/-- An entry list with one version authored by `alice`. -/
def entries9 : List SyncEntry := [⟨file9, [⟨"v1", 4, ⟨"u1", "alice"⟩⟩]⟩]

/-- Identity table used by the resolver witness. -/
def users7 : List (String × String) := [("Alice", "alice@example.com")]

/-! ## Lemmas about the `Map` embedding -/

theorem mapKeys_mapSet (m : List (String × String)) (k v : String) :
    mapKeys (mapSet m k v)
      = if k ∈ mapKeys m then mapKeys m else mapKeys m ++ [k] := by
  unfold mapSet
  split
  case isTrue h =>
    unfold mapKeys
    rw [List.map_map]
    exact List.map_congr_left (fun p _ => by
      by_cases hp : p.1 = k
      · simp [hp]
      · simp [hp])
  case isFalse h =>
    simp [mapKeys]

theorem mem_mapKeys_mapSet_self (m : List (String × String)) (k v : String) :
    k ∈ mapKeys (mapSet m k v) := by
  rw [mapKeys_mapSet]
  split
  case isTrue h => exact h
  case isFalse h => simp

theorem mem_mapKeys_mapSet_of_mem (m : List (String × String)) (k v k' : String)
    (h : k' ∈ mapKeys m) : k' ∈ mapKeys (mapSet m k v) := by
  rw [mapKeys_mapSet]
  split
  case isTrue _ => exact h
  case isFalse _ => exact List.mem_append_left _ h

theorem nodup_mapKeys_mapSet (m : List (String × String)) (k v : String)
    (h : (mapKeys m).Nodup) : (mapKeys (mapSet m k v)).Nodup := by
  rw [mapKeys_mapSet]
  split
  case isTrue _ => exact h
  case isFalse hk => simp [List.nodup_append, h, hk]

theorem lookupMap_eq_none (m : List (String × String)) (k : String)
    (h : k ∉ mapKeys m) : lookupMap m k = none := by
  induction m with
  | nil => rfl
  | cons p rest ih =>
    simp only [mapKeys, List.map_cons, List.mem_cons, not_or] at h
    rw [lookupMap, if_neg (fun hh => h.1 hh.symm)]
    exact ih h.2

theorem lookupMap_append (m l : List (String × String)) (k : String) :
    lookupMap (m ++ l) k = optOr (lookupMap m k) (lookupMap l k) := by
  induction m with
  | nil => rfl
  | cons p rest ih =>
    by_cases hp : p.1 = k
    · simp [lookupMap, hp, optOr]
    · simp [lookupMap, hp, ih]

theorem lookupMap_replace_ne (m : List (String × String)) (k v k' : String)
    (h : k' ≠ k) :
    lookupMap (m.map (fun p => if p.1 = k then (k, v) else p)) k'
      = lookupMap m k' := by
  induction m with
  | nil => rfl
  | cons p rest ih =>
    by_cases hp : p.1 = k
    · have hk' : ¬ k = k' := fun hh => h hh.symm
      have hp' : ¬ p.1 = k' := by rw [hp]; exact hk'
      simp [lookupMap, hp, hp', hk', ih]
    · by_cases hp' : p.1 = k'
      · simp [lookupMap, hp, hp', h]
      · simp [lookupMap, hp, hp', ih]

theorem lookupMap_replace_self (m : List (String × String)) (k v : String)
    (h : k ∈ mapKeys m) :
    lookupMap (m.map (fun p => if p.1 = k then (k, v) else p)) k = some v := by
  induction m with
  | nil => simp [mapKeys] at h
  | cons p rest ih =>
    by_cases hp : p.1 = k
    · simp [lookupMap, hp]
    · have h' : k ∈ mapKeys rest := by
        simp only [mapKeys, List.map_cons, List.mem_cons] at h
        rcases h with h | h
        · exact absurd h.symm hp
        · exact h
      simp [lookupMap, hp, ih h']

theorem lookupMap_mapSet (m : List (String × String)) (k v k' : String) :
    lookupMap (mapSet m k v) k'
      = if k' = k then some v else lookupMap m k' := by
  unfold mapSet
  split
  case isTrue hmem =>
    by_cases h' : k' = k
    · subst h'
      rw [lookupMap_replace_self m k' v hmem, if_pos rfl]
    · rw [lookupMap_replace_ne m k v k' h', if_neg h']
  case isFalse hmem =>
    rw [lookupMap_append]
    by_cases h' : k' = k
    · subst h'
      rw [lookupMap_eq_none m k' hmem]
      simp [lookupMap, optOr]
    · have : ¬ k = k' := fun hh => h' hh.symm
      simp [lookupMap, this, h', optOr]
      cases lookupMap m k' <;> rfl

theorem optOr_none_right (a : Option String) : optOr a none = a := by
  cases a <;> rfl

theorem optOr_assoc (a b c : Option String) :
    optOr (optOr a b) c = optOr a (optOr b c) := by
  cases a <;> rfl

theorem mem_keys_setFold (ps : List (String × String))
    (init : List (String × String)) (k : String) (h : k ∈ mapKeys init) :
    k ∈ mapKeys (setFold init ps) := by
  induction ps generalizing init with
  | nil => exact h
  | cons p rest ih => exact ih _ (mem_mapKeys_mapSet_of_mem init p.1 p.2 k h)

theorem nodup_keys_setFold (ps : List (String × String))
    (init : List (String × String)) (h : (mapKeys init).Nodup) :
    (mapKeys (setFold init ps)).Nodup := by
  induction ps generalizing init with
  | nil => exact h
  | cons p rest ih => exact ih _ (nodup_mapKeys_mapSet init p.1 p.2 h)

theorem lookupMap_setFold (ps : List (String × String))
    (init : List (String × String)) (k : String) :
    lookupMap (setFold init ps) k = optOr (lastVal ps k) (lookupMap init k) := by
  induction ps generalizing init with
  | nil => rfl
  | cons p rest ih =>
    show lookupMap (setFold (mapSet init p.1 p.2) rest) k = _
    rw [ih, lookupMap_mapSet]
    by_cases h : k = p.1
    · have h' : p.1 = k := h.symm
      rw [if_pos h]
      show _ = optOr (optOr (lastVal rest k) (if p.1 = k then some p.2 else none)) _
      rw [if_pos h', optOr_assoc]
      rfl
    · have h' : ¬ p.1 = k := fun hh => h hh.symm
      rw [if_neg h]
      show _ = optOr (optOr (lastVal rest k) (if p.1 = k then some p.2 else none)) _
      rw [if_neg h', optOr_none_right]

theorem keys_setFold_sublist (ps : List (String × String)) :
    ∀ init : List (String × String),
      ∃ t, mapKeys (setFold init ps) = mapKeys init ++ t
        ∧ t.Sublist (ps.map Prod.fst) := by
  induction ps with
  | nil => exact fun init => ⟨[], by simp [setFold], List.nil_sublist _⟩
  | cons p rest ih =>
    intro init
    obtain ⟨t, ht, hs⟩ := ih (mapSet init p.1 p.2)
    rw [mapKeys_mapSet] at ht
    by_cases hmem : p.1 ∈ mapKeys init
    · rw [if_pos hmem] at ht
      exact ⟨t, ht, hs.trans (List.sublist_cons_self p.1 _)⟩
    · rw [if_neg hmem] at ht
      refine ⟨p.1 :: t, ?_, List.Sublist.cons₂ p.1 hs⟩
      show mapKeys (setFold (mapSet init p.1 p.2) rest) = _
      rw [ht, List.append_assoc]
      rfl

theorem foldl_if_filter {α β : Type} (c : α → Bool) (f : β → α → β) :
    ∀ (l : List α) (init : β),
      l.foldl (fun m a => if c a then f m a else m) init
        = (l.filter c).foldl f init := by
  intro l
  induction l with
  | nil => intro init; rfl
  | cons a rest ih =>
    intro init
    by_cases h : c a
    · simp [List.filter_cons, h, ih]
    · simp [List.filter_cons, h, ih]

theorem buildEditorsMap_eq (marker : Time) (vs : List Version) :
    buildEditorsMap marker vs = setFold [] (qualifyingPairs marker vs) := by
  unfold buildEditorsMap qualifyingPairs setFold
  rw [foldl_if_filter (qualifies marker)
    (fun m iv => mapSet m iv.2.user.id iv.2.user.handle), List.foldl_map]

/-! ## Lemmas about the resolver, extractor, and payload builder -/

theorem getEmailFromHandle_mem_users (users : List (String × String))
    (h e : String) (hres : getEmailFromHandle users h = some e) :
    ∃ nm, (nm, e) ∈ users := by
  induction users with
  | nil => exact absurd hres (by simp [getEmailFromHandle])
  | cons u rest ih =>
    rw [getEmailFromHandle] at hres
    split at hres
    · injection hres with he
      subst he
      exact ⟨u.1, by simp⟩
    · obtain ⟨nm, hnm⟩ := ih hres
      exact ⟨nm, List.mem_cons_of_mem u hnm⟩

theorem resolveEditorList_resolved (users : List (String × String)) :
    ∀ (m : List (String × String)) (ed : Editor),
      ed ∈ resolveEditorList users m →
      getEmailFromHandle users ed.name = some ed.email := by
  intro m
  induction m with
  | nil => intro ed h; exact absurd h (by simp [resolveEditorList])
  | cons p rest ih =>
    intro ed h
    cases hres : getEmailFromHandle users p.2 with
    | none =>
      rw [resolveEditorList, hres] at h
      exact ih ed h
    | some e =>
      rw [resolveEditorList, hres] at h
      rcases List.mem_cons.mp h with h1 | h2
      · subst h1
        exact hres
      · exact ih ed h2

theorem notFoundLine_mem_resolveLog (users : List (String × String))
    (m : List (String × String)) (hnd : String)
    (hmem : hnd ∈ m.map Prod.snd)
    (hres : getEmailFromHandle users hnd = none) :
    notFoundLine hnd ∈ resolveLog users m := by
  induction m with
  | nil => simp at hmem
  | cons p rest ih =>
    simp only [List.map_cons, List.mem_cons] at hmem
    rcases hmem with h1 | h2
    · subst h1
      rw [resolveLog, hres]
      exact List.mem_cons_self _ _
    · cases hres2 : getEmailFromHandle users p.2 with
      | none =>
        rw [resolveLog, hres2]
        exact List.mem_cons_of_mem _ (ih h2)
      | some e =>
        rw [resolveLog, hres2]
        exact List.mem_cons_of_mem _ (ih h2)

theorem addEditorsSince_editors_resolved (users : List (String × String))
    (marker : Time) :
    ∀ (entries : List SyncEntry) (e' : SyncEntryE),
      e' ∈ (addEditorsSince users marker entries).1 →
      ∀ ed ∈ e'.editors, getEmailFromHandle users ed.name = some ed.email := by
  intro entries
  induction entries with
  | nil => intro e' h; exact absurd h (by simp [addEditorsSince])
  | cons e rest ih =>
    intro e' h ed hed
    rw [addEditorsSince] at h
    rcases List.mem_cons.mp h with h1 | h2
    · subst h1
      exact resolveEditorList_resolved users _ ed hed
    · exact ih e' h2 ed hed

theorem mem_addEditorsSince_log (users : List (String × String))
    (marker : Time) :
    ∀ (entries : List SyncEntry) (e : SyncEntry), e ∈ entries →
      ∀ line, line ∈ resolveLog users (buildEditorsMap marker e.versions) →
      line ∈ (addEditorsSince users marker entries).2 := by
  intro entries
  induction entries with
  | nil => intro e h; exact absurd h (by simp)
  | cons e0 rest ih =>
    intro e h line hline
    rw [addEditorsSince]
    rcases List.mem_cons.mp h with h1 | h2
    · subst h1
      exact List.mem_append_left _ (List.mem_cons_of_mem _ hline)
    · exact List.mem_append_right _ (ih e h2 line hline)

theorem mem_createRangePayloads (entriesE : List SyncEntryE) (p : Payload)
    (h : p ∈ createRangePayloads entriesE) :
    ∃ e ∈ entriesE, ∃ ed ∈ e.editors, p = payloadFor e.file ed := by
  induction entriesE with
  | nil => exact absurd h (by simp [createRangePayloads])
  | cons e rest ih =>
    rw [createRangePayloads] at h
    rcases List.mem_append.mp h with h1 | h2
    · obtain ⟨ed, hed, hpe⟩ := List.mem_map.mp h1
      exact ⟨e, List.mem_cons_self _ _, ed, hed, hpe.symm⟩
    · obtain ⟨e', he', ed, hed, hpe⟩ := ih h2
      exact ⟨e', List.mem_cons_of_mem _ he', ed, hed, hpe⟩

/-! ## Lemmas about the orchestrator -/

theorem syncMarker_cases (w : World) (users : List (String × String))
    (T m : Time) :
    (syncFigmaToRange w users T m).2 = m
      ∨ (syncFigmaToRange w users T m).2 = T - 1 := by
  unfold syncFigmaToRange
  cases runPipeline w users m with
  | none => exact Or.inl rfl
  | some pr =>
    obtain ⟨p, l⟩ := pr
    by_cases hd : sendRangePayloads w.postResult p
    · simp [hd]
    · simp [hd]

theorem markerTrace_head (users : List (String × String)) (m : Time)
    (cycles : List (World × Time)) :
    (markerTrace users m cycles).head? = some m := by
  cases cycles <;> rfl

theorem nondecreasing_cons (a : Time) (l : List Time)
    (hhead : ∀ b, l.head? = some b → a ≤ b)
    (hl : nondecreasing l = true) : nondecreasing (a :: l) = true := by
  cases l with
  | nil => rfl
  | cons b rest => simp [nondecreasing, hhead b rfl, hl]

theorem nondecreasing_head (a : Time) (l : List Time)
    (h : nondecreasing (a :: l) = true) :
    ∀ b, l.head? = some b → a ≤ b := by
  cases l with
  | nil => intro b hb; cases hb
  | cons b rest =>
    intro b' hb'
    injection hb' with hb'
    subst hb'
    simp only [nondecreasing, Bool.and_eq_true, decide_eq_true_eq] at h
    exact h.1

theorem nondecreasing_tail (a : Time) (l : List Time)
    (h : nondecreasing (a :: l) = true) : nondecreasing l = true := by
  cases l with
  | nil => rfl
  | cons b rest =>
    simp only [nondecreasing, Bool.and_eq_true, decide_eq_true_eq] at h
    exact h.2

theorem nondecreasing_markerTrace_aux (users : List (String × String)) :
    ∀ (cycles : List (World × Time)) (m : Time),
      (∀ T, (cycles.map Prod.snd).head? = some T → m ≤ T - 1) →
      nondecreasing (cycles.map Prod.snd) = true →
      nondecreasing (markerTrace users m cycles) = true := by
  intro cycles
  induction cycles with
  | nil => intro m _ _; rfl
  | cons c rest ih =>
    intro m hbound hch
    obtain ⟨w, T⟩ := c
    have hmT : m ≤ T - 1 := hbound T (by simp)
    have hcases := syncMarker_cases w users T m
    have hm'T : (syncFigmaToRange w users T m).2 ≤ T - 1 := by
      rcases hcases with h | h
      · rw [h]; exact hmT
      · rw [h]
    have hle : m ≤ (syncFigmaToRange w users T m).2 := by
      rcases hcases with h | h
      · rw [h]
      · rw [h]; exact hmT
    have hch' : nondecreasing (rest.map Prod.snd) = true :=
      nondecreasing_tail _ _ (by simpa using hch)
    have hbound' : ∀ T', (rest.map Prod.snd).head? = some T' →
        (syncFigmaToRange w users T m).2 ≤ T' - 1 := by
      intro T' hT'
      have hTT' : T ≤ T' := nondecreasing_head T _ (by simpa using hch) T' hT'
      exact hm'T.trans (sub_le_sub_right hTT' 1)
    have ihres := ih (syncFigmaToRange w users T m).2 hbound' hch'
    show nondecreasing
      (m :: markerTrace users (syncFigmaToRange w users T m).2 rest) = true
    refine nondecreasing_cons m _ (fun b hb => ?_) ihres
    rw [markerTrace_head] at hb
    injection hb with hb
    rw [hb] at hle
    exact hle

/-! ## Claim theorems -/

/-- C1: the claim says a dispatch stage succeeds iff every webhook POST
response has HTTP status 200, with any non-200 response failing the cycle
so the marker is not advanced. The code does not behave this way: the
`resp.status != 200` check returns its `Promise.reject` from inside a
`forEach` callback, where it is discarded, so any 2xx response counts as
success. Concretely, with every POST answering HTTP 204 the dispatch
succeeds, the cycle succeeds, and the marker advances to `T − 1` —
while the spec's own criterion (`dispatchSuccessSpec`) calls a 204 a
failure. -/
theorem c1_dispatch_accepts_204 :
    syncFigmaToRange w204 users204 10 0 = (true, 9)
      ∧ (∀ p, w204.postResult p = some 204)
      ∧ dispatchSuccessSpec [some 204] = false :=
  ⟨by decide, fun _ => rfl, by decide⟩

/-- C2: for every cycle that completes fully successfully — the whole
promise chain resolves and every dispatch is accepted — the marker after
the cycle equals the cycle start time `T` minus 1 minute, for any `T`
captured at cycle entry (hence independent of how long the cycle took). -/
theorem c2_marker_advance_on_success (w : World)
    (users : List (String × String)) (T m : Time)
    (payloads : List Payload) (lg : List String)
    (h1 : runPipeline w users m = some (payloads, lg))
    (h2 : sendRangePayloads w.postResult payloads = true) :
    syncFigmaToRange w users T m = (true, T - 1) := by
  simp [syncFigmaToRange, h1, h2]

/-- Witness for C2 at a concrete successful cycle: no projects, cycle
start time 5, old marker 0; the cycle succeeds and the marker becomes 4. -/
theorem c2_marker_advance_on_success_witness :
    syncFigmaToRange wEmpty [] 5 0 = (true, 4) :=
  c2_marker_advance_on_success wEmpty [] 5 0 [] [] rfl rfl

/-- C3: for every cycle that fails at any stage (equivalently, whose
result flag is `false`, which covers a failure of project listing, file
listing, version fetch, and dispatch — payload build and editor
extraction cannot fail), the marker is left exactly unchanged, and a
subsequent cycle therefore starts from that old marker. -/
theorem c3_marker_unchanged_on_failure (w : World)
    (users : List (String × String)) (T m : Time)
    (hfail : (syncFigmaToRange w users T m).1 = false) :
    (syncFigmaToRange w users T m).2 = m
      ∧ ∀ rest, markerTrace users m ((w, T) :: rest)
          = m :: markerTrace users m rest := by
  have h2 : (syncFigmaToRange w users T m).2 = m := by
    unfold syncFigmaToRange at hfail ⊢
    cases hrp : runPipeline w users m with
    | none => rfl
    | some pr =>
      obtain ⟨payloads, lg⟩ := pr
      cases hd : sendRangePayloads w.postResult payloads with
      | true =>
        rw [hrp] at hfail
        simp [hd] at hfail
      | false => simp [hd]
  exact ⟨h2, fun rest => by rw [markerTrace, h2]⟩

/-- Witness for C3 at a concrete failing cycle: the projects request
fails, and the marker stays at its old value 2. -/
theorem c3_marker_unchanged_on_failure_witness :
    (syncFigmaToRange wFail [] 5 2).2 = 2 :=
  (c3_marker_unchanged_on_failure wFail [] 5 2 rfl).1

/-- C4 counterexample: with a configured history window of 0 minutes the
claim fails. The marker is initialized to the start time minus the window;
an immediately following fully successful cycle (start time equal to the
process start, as in the immediate first run) sets the marker to the start
time minus 1 minute — strictly below its previous value, even though the
cycle succeeded and no clock ever moved backwards. -/
theorem c4_marker_decrease_counterexample :
    (syncFigmaToRange wEmpty [] 0 (initialMarker 0 0)).1 = true
      ∧ (syncFigmaToRange wEmpty [] 0 (initialMarker 0 0)).2
          < initialMarker 0 0 := by
  decide

/-- C4 (amended): across every sequence of cycles in one process run,
assuming cycles do not overlap, wall-clock time is non-decreasing (the
startup time precedes the first cycle's start time, and cycle start times
are non-decreasing), and additionally that the configured initial history
window is at least 1 minute, the successive values of the marker are
monotonically non-decreasing: each cycle either leaves the marker
unchanged (failure) or sets it to a value ≥ its previous value
(success). -/
theorem c4_marker_monotone_amended (users : List (String × String))
    (t0 H : Time) (cycles : List (World × Time))
    (hH : 1 ≤ H)
    (hch : nondecreasing (t0 :: cycles.map Prod.snd) = true) :
    nondecreasing (markerTrace users (initialMarker t0 H) cycles) = true := by
  apply nondecreasing_markerTrace_aux
  · intro T hT
    have ht0T : t0 ≤ T := nondecreasing_head t0 _ hch T hT
    exact (sub_le_sub_left hH t0).trans (sub_le_sub_right ht0T 1)
  · exact nondecreasing_tail _ _ hch

/-- Witness for the amended C4: history window 1 minute, a successful
cycle at time 0 then a failing cycle at time 5; the marker trace is
non-decreasing. -/
theorem c4_marker_monotone_amended_witness :
    nondecreasing
      (markerTrace [] (initialMarker 0 1) [(wEmpty, 0), (wFail, 5)]) = true :=
  c4_marker_monotone_amended [] 0 1 [(wEmpty, 0), (wFail, 5)]
    (by decide) (by decide)

/-- C5: for every marker and every non-empty version list (the walk is
over the list as returned, newest first), the extractor's editor map
contains the author of the first version `V[0]`, whatever its
`created_at` — in particular also when `created_at(V[0]) ≤ M`, since the
marker is universally quantified here. -/
theorem c5_first_version_author_included (marker : Time) (v : Version)
    (rest : List Version) :
    v.user.id ∈ mapKeys (buildEditorsMap marker (v :: rest)) := by
  rw [buildEditorsMap_eq]
  have hq : qualifyingPairs marker (v :: rest)
      = (v.user.id, v.user.handle) ::
        ((List.enumFrom 1 rest).filter (qualifies marker)).map
          (fun iv => (iv.2.user.id, iv.2.user.handle)) := by
    unfold qualifyingPairs
    have he : (v :: rest).enum = (0, v) :: List.enumFrom 1 rest := rfl
    rw [he, List.filter_cons]
    have hq0 : qualifies marker (0, v) = true := by simp [qualifies]
    simp [hq0]
  rw [hq]
  show v.user.id ∈ mapKeys (setFold (mapSet [] v.user.id v.user.handle) _)
  exact mem_keys_setFold _ _ _ (by simp [mapSet, mapKeys])

/-- C6: for every marker and version list, the extractor's editor map has
no duplicate user ids; the handle stored for a user id is the handle of
the last qualifying version for that id in walk order (the
most-recently-seen spelling, i.e. the latest `Map.set`); and ids appear in
discovery order — the key sequence is a subsequence of the qualifying
walk's id sequence. The claim's concrete scenario (versions
`[v0 (A, old), v1 (B, new), v2 (A, old)]` against marker 5 yield editors
`[A, B]` in that order, deduplicated by id) holds. -/
theorem c6_dedup_latest_handle_order (marker : Time) (vs : List Version) :
    (mapKeys (buildEditorsMap marker vs)).Nodup
      ∧ (∀ k, lookupMap (buildEditorsMap marker vs) k
            = lastVal (qualifyingPairs marker vs) k)
      ∧ (mapKeys (buildEditorsMap marker vs)).Sublist
          (mapKeys (qualifyingPairs marker vs))
      ∧ buildEditorsMap 5
          [⟨"v0", 0, ⟨"uA", "A"⟩⟩, ⟨"v1", 10, ⟨"uB", "B"⟩⟩,
           ⟨"v2", 0, ⟨"uA", "A"⟩⟩]
          = [("uA", "A"), ("uB", "B")] := by
  refine ⟨?_, ?_, ?_, by decide⟩
  · rw [buildEditorsMap_eq]
    exact nodup_keys_setFold _ _ (by simp [mapKeys])
  · intro k
    rw [buildEditorsMap_eq, lookupMap_setFold]
    show optOr _ none = _
    rw [optOr_none_right]
  · rw [buildEditorsMap_eq]
    obtain ⟨t, ht, hs⟩ := keys_setFold_sublist (qualifyingPairs marker vs) []
    rw [ht]
    exact hs

/-- C7: the identity resolver only inspects the trimmed, lowercased
handle, so any two handles with equal normal forms resolve identically
against every table. -/
theorem c7_resolver_normalization_invariant (users : List (String × String))
    (h1 h2 : String) (h : normHandle h1 = normHandle h2) :
    getEmailFromHandle users h1 = getEmailFromHandle users h2 := by
  induction users with
  | nil => rfl
  | cons u rest ih => simp [getEmailFromHandle, h, ih]

/-- Witness for C7: `" Alice "` and `"alice"` resolve to the same result
(here, the same email) against a concrete table. -/
theorem c7_resolver_normalization_invariant_witness :
    getEmailFromHandle users7 " Alice " = getEmailFromHandle users7 "alice"
      ∧ getEmailFromHandle users7 " Alice " = some "alice@example.com" :=
  ⟨c7_resolver_normalization_invariant users7 " Alice " "alice" (by decide),
   by decide⟩

/-- C8: if during a cycle some version author's handle is absent from the
identity table, then — provided the remote reads succeeded, yielding
`entries`, and the dispatch of the generated payloads succeeds — the cycle
still succeeds and the marker still advances to `T − 1`; the not-found
diagnostic for that handle is logged; and no editor with that handle
appears in any entry's editor list (so no payload is built for it). -/
theorem c8_unresolved_editor_nonfatal (w : World)
    (users : List (String × String)) (T m : Time)
    (entries : List SyncEntry) (hnd : String)
    (hent : pipelineEntries w m = some entries)
    (hhand : ∃ e ∈ entries, hnd ∈ (buildEditorsMap m e.versions).map Prod.snd)
    (hres : getEmailFromHandle users hnd = none)
    (hdisp : sendRangePayloads w.postResult
        (createRangePayloads (addEditorsSince users m entries).1) = true) :
    syncFigmaToRange w users T m = (true, T - 1)
      ∧ notFoundLine hnd ∈ (addEditorsSince users m entries).2
      ∧ ∀ e' ∈ (addEditorsSince users m entries).1,
          ∀ ed ∈ e'.editors, ed.name ≠ hnd := by
  refine ⟨?_, ?_, ?_⟩
  · simp [syncFigmaToRange, runPipeline, hent, hdisp]
  · obtain ⟨e, he, hmem⟩ := hhand
    exact mem_addEditorsSince_log users m entries e he _
      (notFoundLine_mem_resolveLog users _ hnd hmem hres)
  · intro e' he' ed hed heq
    have hsome := addEditorsSince_editors_resolved users m entries e' he' ed hed
    rw [heq, hres] at hsome
    exact Option.noConfusion hsome

/-- Witness for C8: the only edit is by `ghost`, a handle absent from the
table; the cycle still succeeds with the marker advancing from 0 to 9, and
the not-found diagnostic is logged. -/
theorem c8_unresolved_editor_nonfatal_witness :
    syncFigmaToRange wGhost users8 10 0 = (true, 9)
      ∧ notFoundLine "ghost" ∈ (addEditorsSince users8 0 entries8).2 := by
  have h := c8_unresolved_editor_nonfatal wGhost users8 10 0 entries8 "ghost"
    (by decide)
    ⟨⟨⟨"KEY", "Design", 5⟩, [⟨"v1", 4, ⟨"u7", "ghost"⟩⟩]⟩, by decide, by decide⟩
    (by decide) (by decide)
  exact ⟨h.1, h.2.1⟩

set_option maxRecDepth 40000 in
/-- C9: every generated payload's `email_hash` is the SHA-1 hex digest of
an email exactly as it appears in the identity table — no lowercasing or
trimming is applied anywhere between the table and the digest. The SHA-1
embedding is pinned by the standard test vector for `"abc"`, and — as the
claim's consequence — emails differing only in letter case, or only in
surrounding whitespace, produce different `email_hash` values. -/
theorem c9_email_hash_exact :
    (∀ (users : List (String × String)) (marker : Time)
       (entries : List SyncEntry) (p : Payload),
       p ∈ createRangePayloads (addEditorsSince users marker entries).1 →
       ∃ nm em, (nm, em) ∈ users ∧ p.email_hash = sha1Hex em)
      ∧ sha1Hex "abc" = "a9993e364706816aba3e25717850c26c9cd0d89d"
      ∧ sha1Hex "Foo@example.com" ≠ sha1Hex "foo@example.com"
      ∧ sha1Hex " a@b.c" ≠ sha1Hex "a@b.c" := by
  refine ⟨?_, by decide, by decide, by decide⟩
  intro users marker entries p hp
  obtain ⟨e, he, ed, hed, hpe⟩ := mem_createRangePayloads _ p hp
  have hsome := addEditorsSince_editors_resolved users marker entries e he ed hed
  obtain ⟨nm, hnm⟩ := getEmailFromHandle_mem_users users ed.name ed.email hsome
  exact ⟨nm, ed.email, hnm, by rw [hpe]; rfl⟩

set_option maxRecDepth 40000 in
/-- Witness for C9's universally quantified part, at a table whose email
value has mixed case: the produced payload's hash is the digest of the
verbatim table value. -/
theorem c9_email_hash_exact_witness :
    ∃ nm em, (nm, em) ∈ users9
      ∧ (payloadFor file9 ed9).email_hash = sha1Hex em :=
  c9_email_hash_exact.1 users9 0 entries9 (payloadFor file9 ed9) (by decide)

/-- C10: the editor-extraction stage only adds an `editors` field: it
preserves each entry's `file` and `versions` and the number and order of
entries. -/
theorem c10_addEditors_frame (users : List (String × String)) (marker : Time)
    (entries : List SyncEntry) :
    ((addEditorsSince users marker entries).1).map (fun e => (e.file, e.versions))
        = entries.map (fun e => (e.file, e.versions))
      ∧ ((addEditorsSince users marker entries).1).length = entries.length := by
  induction entries with
  | nil => exact ⟨rfl, rfl⟩
  | cons e rest ih =>
    rw [addEditorsSince]
    exact ⟨by simp [ih.1], by simp [ih.2]⟩

end FigmaRangeSync
